import Mathlib

/-!
Verification of the route-to-schema synthesis engine of `serverless-auto-swagger`
(`src/index.ts`), shallowly embedded in Lean.  JavaScript objects are modelled as
association lists with JS property semantics (`setKey` replaces in place or
appends, `getKey` finds the first matching key); optional string fields use JS
truthiness (`strTruthy`); the path-parameter regular expression is embedded as a
character scanner.
-/

namespace AutoSwagger

/-- The opening brace character. -/
def lbrace : Char := Char.ofNat 123

/-- The closing brace character. -/
def rbrace : Char := Char.ofNat 125

/-- The slash character. -/
def slashChar : Char := Char.ofNat 47

/-- JS truthiness of an optional string field: truthy iff present and nonempty. -/
def strTruthy (o : Option String) : Bool := decide ((o.getD "") ≠ "")

/-- JS object property lookup on an association list (first matching key). -/
def getKey {α : Type} : List (String × α) → String → Option α
  | [], _ => none
  | (k', v) :: rest, k => if k' = k then some v else getKey rest k

/-- JS object property assignment: when the key exists its value is replaced in
place (key order kept), otherwise the new pair is appended at the end. -/
def setKey {α : Type} : List (String × α) → String → α → List (String × α)
  | [], k, v => [(k, v)]
  | (k', v') :: rest, k, v =>
    if k' = k then (k', v) :: rest else (k', v') :: setKey rest k v

/-- Embedding of `path.match(/[^{\}]+(?=})/g)`: the maximal runs of non-brace
characters that are immediately followed by a closing brace, left to right.
`run` holds the characters of the current non-brace run, reversed. -/
def extractGo : List Char → List Char → List String
  | [], _ => []
  | c :: rest, run =>
    if c = lbrace then extractGo rest []
    else if c = rbrace then
      if run = [] then extractGo rest []
      else run.reverse.asString :: extractGo rest []
    else extractGo rest (c :: run)

/-- All matches of the path-parameter regular expression in a path template. -/
def extractPathParams (path : String) : List String := extractGo path.data []

/-- Scanner for genuine placeholders, formalizing the notion of a
lbrace-name-rbrace placeholder used by the specification: substrings consisting
of an opening brace, a nonempty brace-free name, and a closing brace.
`st = some run` while scanning inside an open brace. -/
def placeholderGo : List Char → Option (List Char) → List String
  | [], _ => []
  | c :: rest, st =>
    if c = lbrace then placeholderGo rest (some [])
    else if c = rbrace then
      match st with
      | some run =>
        if run = [] then placeholderGo rest none
        else run.reverse.asString :: placeholderGo rest none
      | none => placeholderGo rest none
    else
      match st with
      | some run => placeholderGo rest (some (c :: run))
      | none => placeholderGo rest none

/-- The placeholder names of a path template, in left-to-right order. -/
def placeholdersOf (tpl : String) : List String := placeholderGo tpl.data none

/-- One OpenAPI parameter object as built by `httpEventToParameters`.
The JSON key `in` is modelled by the field `location`; the `schema` field holds
the reference string of its single `$ref` key. -/
structure Param where
  location : String
  name : String
  required : Bool
  type : Option String := none
  description : Option String := none
  schema : Option String := none
deriving DecidableEq

/-- The path parameter object pushed by `httpEventToParameters`. -/
def pathParam (name : String) (required : Bool) : Param :=
  { location := "path", name := name, required := required, type := some "string" }

/-- The body parameter object pushed by `httpEventToParameters`. -/
def bodyParam (bodyType : String) : Param :=
  { location := "body", name := "body", required := true,
    description := some "Body required in the request",
    schema := some ("#/definitions/" ++ bodyType) }

/-- A declared response: a bare description string or a structured object. -/
inductive ResponseDecl where
  | str (s : String)
  | obj (description : Option String) (bodyType : Option String)
deriving DecidableEq

/-- A formatted OpenAPI response; `schema` holds the `$ref` string when present. -/
structure Response where
  description : String
  schema : Option String := none
deriving DecidableEq

/-- The unified object form of an `http` / `httpApi` event.  The nested
`parameters?.path` access of the source is modelled by the flattened optional
field `parametersPath`. -/
structure HttpObj where
  path : String
  method : String
  description : Option String := none
  swaggerTags : Option (List String) := none
  bodyType : Option String := none
  parametersPath : Option (List (String × Bool)) := none
  responses : Option (List (String × ResponseDecl)) := none
deriving DecidableEq

/-- Modelled from the spec: `removeStringFromArray` lives in
`helperFunctions.ts`, which is not among the provided sources.  Spec section 4.3
says each explicitly declared name is removed from the set of names extracted
from the template; modelled as removing every occurrence of the string. -/
def removeStringFromArray (arr : List String) (s : String) : List String :=
  arr.filter (fun x => decide (x ≠ s))

/-- Embedding of `httpEventToParameters`: optional body parameter, then the
implicit path parameters (no explicit declaration), then the explicit
declarations followed by the uncovered template parameters. -/
def httpEventToParameters (httpEvent : HttpObj) : List Param :=
  let bodyPart :=
    if strTruthy httpEvent.bodyType then [bodyParam (httpEvent.bodyType.getD "")]
    else []
  let pathMatches := extractPathParams httpEvent.path
  let implicitPart :=
    if httpEvent.parametersPath = none ∧ pathMatches ≠ [] then
      pathMatches.map (fun p => pathParam p true)
    else []
  let explicitPart :=
    match httpEvent.parametersPath with
    | none => []
    | some rawPathParams =>
      rawPathParams.map (fun pr => pathParam pr.1 pr.2) ++
        (rawPathParams.foldl (fun acc pr => removeStringFromArray acc pr.1)
            pathMatches).map (fun p => pathParam p true)
  bodyPart ++ implicitPart ++ explicitPart

/-- Formatting of a single declared response under its status code. -/
def formatResponse (statusCode : String) (responseDetails : ResponseDecl) : Response :=
  match responseDetails with
  | .str s => { description := s }
  | .obj desc bodyType =>
    let response : Response :=
      { description := if strTruthy desc then desc.getD "" else statusCode ++ " response" }
    if strTruthy bodyType then
      { response with schema := some ("#/definitions/" ++ bodyType.getD "") }
    else response

/-- Embedding of `formatResponses`. -/
def formatResponses : Option (List (String × ResponseDecl)) → List (String × Response)
  | none => [("200", { description := "200 response" })]
  | some responses =>
    responses.foldl (fun formatted pr => setKey formatted pr.1 (formatResponse pr.1 pr.2)) []

/-- Embedding of `httpEventToSecurity`: always absent. -/
def httpEventToSecurity (_http : HttpObj) : Option Unit := none

/-- One emitted operation object. -/
structure Operation where
  summary : String
  description : String
  tags : Option (List String)
  operationId : String
  consumes : List String
  produces : List String
  parameters : List Param
  responses : List (String × Response)
  security : Option Unit
deriving DecidableEq

/-- The operation object assigned to `paths[path][http.method]`. -/
def mkOperation (functionName : String) (http : HttpObj) : Operation :=
  { summary := functionName,
    description := http.description.getD "",
    tags := http.swaggerTags,
    operationId := functionName,
    consumes := ["application/json"],
    produces := ["application/json"],
    parameters := httpEventToParameters http,
    responses := formatResponses http.responses,
    security := httpEventToSecurity http }

/-- An HTTP trigger declaration: the shorthand string form or the full object form. -/
inductive HttpDecl where
  | shorthand (s : String)
  | full (h : HttpObj)
deriving DecidableEq

/-- One event of a function configuration, with its optional `http` and
`httpApi` keys. -/
structure Event where
  http : Option HttpDecl := none
  httpApi : Option HttpDecl := none
deriving DecidableEq

/-- JS truthiness of an optional trigger declaration (an empty shorthand string
is falsy, any object is truthy). -/
def declTruthy : Option HttpDecl → Bool
  | none => false
  | some (.shorthand s) => !s.isEmpty
  | some (.full _) => true

/-- The selected trigger of an event: `event.http || event.httpApi`. -/
def eventHttp (e : Event) : Option HttpDecl :=
  if declTruthy e.http then e.http else if declTruthy e.httpApi then e.httpApi else none

/-- One function configuration (`config.events || []` is modelled by an
optional event list). -/
structure FunctionConfig where
  events : Option (List Event) := none
deriving DecidableEq

/-- The paths map: path template to method to operation object. -/
abbrev Paths := List (String × List (String × Operation))

/-- Embedding of the normalization step: a leading slash is prepended when the
path template does not already start with one. -/
def normalizePath (path : String) : String :=
  if path.data.head? = some slashChar then path else "/" ++ path

/-- Processing of one event inside `generatePaths`: unsupported and shorthand
triggers contribute nothing; a full trigger upserts its operation object under
the normalized path and the verbatim method key. -/
def processEvent (functionName : String) (paths : Paths) (event : Event) : Paths :=
  match eventHttp event with
  | none => paths
  | some (.shorthand _) => paths
  | some (.full http) =>
    let path := normalizePath http.path
    let ops := (getKey paths path).getD []
    setKey paths path (setKey ops http.method (mkOperation functionName http))

/-- The paths map built by `generatePaths` from the function map. -/
def buildPaths (functions : List (String × FunctionConfig)) : Paths :=
  functions.foldl
    (fun paths fc => ((fc.2.events).getD []).foldl (processEvent fc.1) paths) []

/-- Lookup of the operation stored for a path and method key. -/
def lookupOp (paths : Paths) (path method : String) : Option Operation :=
  (getKey paths path).bind (fun ops => getKey ops method)

/-- The flattened list of full-object routes processed by `generatePaths`, in
processing order, shorthand and unsupported triggers skipped. -/
def routesOf : List (String × FunctionConfig) → List (String × HttpObj)
  | [] => []
  | fc :: rest =>
    ((fc.2.events).getD []).filterMap (fun e =>
      match eventHttp e with
      | some (.full h) => some (fc.1, h)
      | _ => none) ++ routesOf rest

/-- An opaque schema definition body (never inspected by the engine). -/
abbrev Definition := String

/-- The info block of the swagger document. -/
structure Info where
  title : String
  version : String
deriving DecidableEq

/-- The swagger document held by the plugin. -/
structure Swagger where
  swagger : String
  info : Info
  schemes : List String
  paths : Paths
  definitions : Option (List (String × Definition)) := none
deriving DecidableEq

/-- The document skeleton created at construction time. -/
def initialSwagger : Swagger :=
  { swagger := "2.0", info := { title := "", version := "1" },
    schemes := ["https"], paths := [] }

/-- Embedding of `generatePaths` at the document level: it assigns the freshly
built paths map to the document. -/
def generatePaths (sw : Swagger) (functions : List (String × FunctionConfig)) : Swagger :=
  { sw with paths := buildPaths functions }

/-- The outcome of reading one type-definition source, converting it and parsing
the converted output: either its schema map or a failure. -/
inductive SourceOutcome where
  | ok (defs : List (String × Definition))
  | err (msg : String)
deriving DecidableEq

/-- Whether a source outcome is a failure. -/
def isErr : SourceOutcome → Bool
  | .ok _ => false
  | .err _ => true

/-- The schema map contributed by a source (empty for a failed source). -/
def defsOf : SourceOutcome → List (String × Definition)
  | .ok defs => defs
  | .err _ => []

/-- Embedding of the per-source merge `combinedDefinitions =` spread of the
accumulator followed by the spread of the source's definitions (later entries
overwrite earlier ones with the same name). -/
def mergeDefs (acc defs : List (String × Definition)) : List (String × Definition) :=
  defs.foldl (fun a p => setKey a p.1 p.2) acc

/-- Embedding of `gatherTypes`: the whole fan-out over the sources sits inside a
single try/catch, so if any source fails the rejection is caught (and logged)
before the assignment to `swagger.definitions`, which therefore keeps its prior
value; when all sources succeed the per-source maps are merged in source order
and assigned. -/
def gatherTypes (sw : Swagger) (sources : List SourceOutcome) : Swagger :=
  if sources.any isErr then sw
  else
    { sw with
      definitions := some (sources.foldl (fun acc s => mergeDefs acc (defsOf s)) []) }

/-- A brace-free string, used to describe well-formed path templates. -/
def braceFree (s : String) : Prop := ∀ c ∈ s.data, c ≠ lbrace ∧ c ≠ rbrace

instance : DecidablePred braceFree := fun s => List.decidableBAll _ s.data

/-- The trailing part of a canonical template: placeholder names each followed
by a literal. -/
def segsString : List (String × String) → String
  | [] => ""
  | (n, lit) :: rest => "\x7b" ++ n ++ "\x7d" ++ lit ++ segsString rest

/-- A canonical well-formed path template: a literal followed by alternating
placeholders and literals. -/
def mkTemplate (lit0 : String) (segs : List (String × String)) : String :=
  lit0 ++ segsString segs

/-! ### Association-list lemmas -/

theorem getKey_setKey {α : Type} (m : List (String × α)) (k q : String) (v : α) :
    getKey (setKey m k v) q = if k = q then some v else getKey m q := by
  induction m with
  | nil => simp [setKey, getKey]
  | cons p rest ih =>
    obtain ⟨k', v'⟩ := p
    by_cases hk : k' = k
    · subst hk
      by_cases hq : k' = q <;> simp [setKey, getKey, hq]
    · by_cases hq : k' = q
      · subst hq
        have hkq : ¬ (k = k') := fun h => hk h.symm
        simp [setKey, getKey, hk, hkq]
      · simp [setKey, getKey, hk, hq, ih]

theorem mem_keys_setKey {α : Type} (m : List (String × α)) (k q : String) (v : α) :
    q ∈ (setKey m k v).map Prod.fst ↔ q ∈ m.map Prod.fst ∨ q = k := by
  induction m with
  | nil => simp [setKey]
  | cons p rest ih =>
    obtain ⟨k', v'⟩ := p
    by_cases hk : k' = k
    · subst hk
      by_cases hq : q = k' <;> simp [setKey, hq]
    · simp [setKey, hk, ih]
      tauto

theorem nodup_keys_setKey {α : Type} (m : List (String × α)) (k : String) (v : α)
    (h : (m.map Prod.fst).Nodup) : ((setKey m k v).map Prod.fst).Nodup := by
  induction m with
  | nil => simp [setKey]
  | cons p rest ih =>
    obtain ⟨k', v'⟩ := p
    simp only [List.map_cons, List.nodup_cons] at h
    by_cases hk : k' = k
    · subst hk
      simpa [setKey] using h
    · simp only [setKey, if_neg hk, List.map_cons, List.nodup_cons]
      refine ⟨fun hmem => ?_, ih h.2⟩
      rcases (mem_keys_setKey rest k k' v).1 hmem with h1 | h1
      · exact h.1 h1
      · exact hk h1

theorem setKey_append {α : Type} (m : List (String × α)) (k : String) (v : α)
    (h : k ∉ m.map Prod.fst) : setKey m k v = m ++ [(k, v)] := by
  induction m with
  | nil => simp [setKey]
  | cons p rest ih =>
    obtain ⟨k', v'⟩ := p
    simp only [List.map_cons, List.mem_cons] at h
    push_neg at h
    have hk : ¬ (k' = k) := fun hh => h.1 hh.symm
    simp [setKey, hk, ih h.2]

/-- The value bound to the last pair carrying a given key, if any. -/
def lastValueFor {α : Type} : List (String × α) → String → Option α
  | [], _ => none
  | p :: rest, k =>
    match lastValueFor rest k with
    | some v => some v
    | none => if p.1 = k then some p.2 else none

theorem getKey_foldl_setKey {α : Type} (l : List (String × α)) (init : List (String × α))
    (k : String) :
    getKey (l.foldl (fun a p => setKey a p.1 p.2) init) k =
      match lastValueFor l k with
      | some v => some v
      | none => getKey init k := by
  induction l generalizing init with
  | nil => simp [lastValueFor]
  | cons p rest ih =>
    simp only [List.foldl_cons, ih, lastValueFor]
    cases h : lastValueFor rest k with
    | some v => simp
    | none =>
      simp only [getKey_setKey]
      by_cases hk : p.1 = k
      · simp [hk]
      · simp [hk]

theorem nodup_keys_foldl_setKey {α : Type} (l : List (String × α))
    (init : List (String × α)) (h : (init.map Prod.fst).Nodup) :
    (((l.foldl (fun a p => setKey a p.1 p.2) init)).map Prod.fst).Nodup := by
  induction l generalizing init with
  | nil => simpa using h
  | cons p rest ih => exact ih _ (nodup_keys_setKey _ _ _ h)

theorem foldl_setKey_of_nodup {β α : Type} (f : String → β → α) (l : List (String × β)) :
    ∀ (acc : List (String × α)), (∀ q ∈ l.map Prod.fst, q ∉ acc.map Prod.fst) →
      (l.map Prod.fst).Nodup →
      l.foldl (fun m pr => setKey m pr.1 (f pr.1 pr.2)) acc =
        acc ++ l.map (fun pr => (pr.1, f pr.1 pr.2)) := by
  induction l with
  | nil => intro acc _ _; simp
  | cons p rest ih =>
    intro acc hdisj hnd
    simp only [List.map_cons, List.nodup_cons] at hnd
    have h1 : p.1 ∉ acc.map Prod.fst := hdisj p.1 (by simp)
    simp only [List.foldl_cons, setKey_append acc p.1 (f p.1 p.2) h1]
    rw [ih (acc ++ [(p.1, f p.1 p.2)])]
    · simp
    · intro q hq
      simp only [List.map_append, List.mem_append] at *
      push_neg
      refine ⟨fun hmem => hdisj q (by simp [hq]) hmem, ?_⟩
      simp only [List.map_cons, List.mem_singleton, List.map_nil]
      rintro rfl
      exact hnd.1 hq
    · exact hnd.2

theorem getKey_map_of_nodup {β α : Type} (f : String → β → α) (l : List (String × β))
    (hnd : (l.map Prod.fst).Nodup) (sc : String) (rd : β) (hmem : (sc, rd) ∈ l) :
    getKey (l.map (fun pr => (pr.1, f pr.1 pr.2))) sc = some (f sc rd) := by
  induction l with
  | nil => cases hmem
  | cons p rest ih =>
    simp only [List.map_cons, List.nodup_cons] at hnd
    rcases List.mem_cons.1 hmem with h | h
    · subst h
      simp [getKey]
    · have hne : ¬ (p.1 = sc) := by
        rintro rfl
        exact hnd.1 (by simpa using List.mem_map_of_mem Prod.fst h)
      simp only [List.map_cons, getKey, if_neg hne]
      exact ih hnd.2 h

/-! ### String and scanner lemmas -/

theorem string_data_append (s t : String) : (s ++ t).data = s.data ++ t.data := by
  cases s; cases t; rfl

theorem asString_data (s : String) : s.data.asString = s := by
  cases s; rfl

theorem data_eq_nil_iff (s : String) : s.data = [] ↔ s = "" := by
  cases s with
  | mk d =>
    constructor
    · intro h
      subst h
      rfl
    · intro h
      rw [h]

theorem extractGo_cons_lbrace (rest : List Char) (run : List Char) :
    extractGo (lbrace :: rest) run = extractGo rest [] := by
  simp [extractGo]

theorem extractGo_cons_rbrace (rest : List Char) (run : List Char) :
    extractGo (rbrace :: rest) run =
      if run = [] then extractGo rest [] else run.reverse.asString :: extractGo rest [] := by
  have h : ¬ (rbrace = lbrace) := by decide
  simp [extractGo, h]

theorem extractGo_cons_other (c : Char) (rest : List Char) (run : List Char)
    (h1 : c ≠ lbrace) (h2 : c ≠ rbrace) :
    extractGo (c :: rest) run = extractGo rest (c :: run) := by
  simp [extractGo, h1, h2]

theorem extractGo_append_lit (lit : List Char) (h : ∀ c ∈ lit, c ≠ lbrace ∧ c ≠ rbrace)
    (rest : List Char) : ∀ run, extractGo (lit ++ rest) run = extractGo rest (lit.reverse ++ run) := by
  induction lit with
  | nil => intro run; simp
  | cons c lit' ih =>
    intro run
    have hc := h c (by simp)
    rw [List.cons_append, extractGo_cons_other c _ _ hc.1 hc.2,
      ih (fun x hx => h x (by simp [hx])) (c :: run)]
    simp

theorem phGo_cons_lbrace (rest : List Char) (st : Option (List Char)) :
    placeholderGo (lbrace :: rest) st = placeholderGo rest (some []) := by
  simp [placeholderGo]

theorem phGo_cons_rbrace_some (rest : List Char) (run : List Char) :
    placeholderGo (rbrace :: rest) (some run) =
      if run = [] then placeholderGo rest none
      else run.reverse.asString :: placeholderGo rest none := by
  have h : ¬ (rbrace = lbrace) := by decide
  simp [placeholderGo, h]

theorem phGo_cons_rbrace_none (rest : List Char) :
    placeholderGo (rbrace :: rest) none = placeholderGo rest none := by
  have h : ¬ (rbrace = lbrace) := by decide
  simp [placeholderGo, h]

theorem phGo_cons_other_some (c : Char) (rest : List Char) (run : List Char)
    (h1 : c ≠ lbrace) (h2 : c ≠ rbrace) :
    placeholderGo (c :: rest) (some run) = placeholderGo rest (some (c :: run)) := by
  simp [placeholderGo, h1, h2]

theorem phGo_cons_other_none (c : Char) (rest : List Char)
    (h1 : c ≠ lbrace) (h2 : c ≠ rbrace) :
    placeholderGo (c :: rest) none = placeholderGo rest none := by
  simp [placeholderGo, h1, h2]

theorem phGo_append_lit_none (lit : List Char) (h : ∀ c ∈ lit, c ≠ lbrace ∧ c ≠ rbrace)
    (rest : List Char) : placeholderGo (lit ++ rest) none = placeholderGo rest none := by
  induction lit with
  | nil => simp
  | cons c lit' ih =>
    have hc := h c (by simp)
    rw [List.cons_append, phGo_cons_other_none c _ hc.1 hc.2]
    exact ih (fun x hx => h x (by simp [hx]))

theorem phGo_append_lit_some (lit : List Char) (h : ∀ c ∈ lit, c ≠ lbrace ∧ c ≠ rbrace)
    (rest : List Char) : ∀ run, placeholderGo (lit ++ rest) (some run) =
      placeholderGo rest (some (lit.reverse ++ run)) := by
  induction lit with
  | nil => intro run; simp
  | cons c lit' ih =>
    intro run
    have hc := h c (by simp)
    rw [List.cons_append, phGo_cons_other_some c _ _ hc.1 hc.2,
      ih (fun x hx => h x (by simp [hx])) (c :: run)]
    simp

theorem segsString_cons_data (n lit : String) (rest : List (String × String)) :
    (segsString ((n, lit) :: rest)).data =
      lbrace :: (n.data ++ rbrace :: (lit.data ++ (segsString rest).data)) := by
  show ("\x7b" ++ n ++ "\x7d" ++ lit ++ segsString rest).data = _
  have hb : "\x7b".data = [lbrace] := by decide
  have hb' : "\x7d".data = [rbrace] := by decide
  rw [string_data_append, string_data_append, string_data_append, string_data_append, hb, hb']
  simp

theorem extractGo_segsString (segs : List (String × String))
    (h : ∀ p ∈ segs, p.1 ≠ "" ∧ braceFree p.1 ∧ braceFree p.2) :
    ∀ run, extractGo (segsString segs).data run = segs.map Prod.fst := by
  induction segs with
  | nil => intro run; rfl
  | cons p rest ih =>
    intro run
    obtain ⟨n, lit⟩ := p
    have hp := h (n, lit) (by simp)
    have hrec : ∀ q ∈ rest, q.1 ≠ "" ∧ braceFree q.1 ∧ braceFree q.2 :=
      fun q hq => h q (List.mem_cons_of_mem _ hq)
    rw [segsString_cons_data, extractGo_cons_lbrace,
      extractGo_append_lit n.data hp.2.1 _ [], extractGo_cons_rbrace]
    have hne : ¬ (n.data.reverse ++ ([] : List Char) = []) := by
      simp only [List.append_nil, List.reverse_eq_nil_iff]
      intro hcon
      exact hp.1 ((data_eq_nil_iff n).1 hcon)
    rw [if_neg hne]
    simp only [List.append_nil, List.reverse_reverse, asString_data]
    rw [extractGo_append_lit lit.data hp.2.2 _ [], ih hrec _]
    simp

theorem extractPathParams_mkTemplate (lit0 : String) (segs : List (String × String))
    (h0 : braceFree lit0) (h : ∀ p ∈ segs, p.1 ≠ "" ∧ braceFree p.1 ∧ braceFree p.2) :
    extractPathParams (mkTemplate lit0 segs) = segs.map Prod.fst := by
  show extractGo (lit0 ++ segsString segs).data [] = _
  rw [string_data_append, extractGo_append_lit lit0.data h0 _ []]
  exact extractGo_segsString segs h _

theorem phGo_segsString (segs : List (String × String))
    (h : ∀ p ∈ segs, p.1 ≠ "" ∧ braceFree p.1 ∧ braceFree p.2) :
    placeholderGo (segsString segs).data none = segs.map Prod.fst := by
  induction segs with
  | nil => rfl
  | cons p rest ih =>
    obtain ⟨n, lit⟩ := p
    have hp := h (n, lit) (by simp)
    have hrec : ∀ q ∈ rest, q.1 ≠ "" ∧ braceFree q.1 ∧ braceFree q.2 :=
      fun q hq => h q (List.mem_cons_of_mem _ hq)
    rw [segsString_cons_data, phGo_cons_lbrace,
      phGo_append_lit_some n.data hp.2.1 _ [], phGo_cons_rbrace_some]
    have hne : ¬ (n.data.reverse ++ ([] : List Char) = []) := by
      simp only [List.append_nil, List.reverse_eq_nil_iff]
      intro hcon
      exact hp.1 ((data_eq_nil_iff n).1 hcon)
    rw [if_neg hne]
    simp only [List.append_nil, List.reverse_reverse, asString_data]
    rw [phGo_append_lit_none lit.data hp.2.2, ih hrec]
    simp

theorem placeholdersOf_mkTemplate (lit0 : String) (segs : List (String × String))
    (h0 : braceFree lit0) (h : ∀ p ∈ segs, p.1 ≠ "" ∧ braceFree p.1 ∧ braceFree p.2) :
    placeholdersOf (mkTemplate lit0 segs) = segs.map Prod.fst := by
  show placeholderGo (lit0 ++ segsString segs).data none = _
  rw [string_data_append, phGo_append_lit_none lit0.data h0]
  exact phGo_segsString segs h

theorem placeholderGo_sublist (cs : List Char) :
    (∀ run, List.Sublist (placeholderGo cs (some run)) (extractGo cs run)) ∧
    (∀ run, List.Sublist (placeholderGo cs none) (extractGo cs run)) := by
  induction cs with
  | nil => exact ⟨fun run => by simp [placeholderGo, extractGo], fun run => by
      simp [placeholderGo, extractGo]⟩
  | cons c rest ih =>
    by_cases h1 : c = lbrace
    · subst h1
      exact ⟨fun run => by
        rw [phGo_cons_lbrace, extractGo_cons_lbrace]; exact ih.1 [],
        fun run => by rw [phGo_cons_lbrace, extractGo_cons_lbrace]; exact ih.1 []⟩
    · by_cases h2 : c = rbrace
      · subst h2
        constructor
        · intro run
          rw [phGo_cons_rbrace_some, extractGo_cons_rbrace]
          by_cases hr : run = []
          · simp only [hr, if_pos rfl]
            exact ih.2 []
          · simp only [if_neg hr]
            exact List.Sublist.cons₂ _ (ih.2 [])
        · intro run
          rw [phGo_cons_rbrace_none, extractGo_cons_rbrace]
          by_cases hr : run = []
          · simp only [hr, if_pos rfl]
            exact ih.2 []
          · simp only [if_neg hr]
            exact List.Sublist.cons _ (ih.2 [])
      · exact ⟨fun run => by
          rw [phGo_cons_other_some c rest run h1 h2, extractGo_cons_other c rest run h1 h2]
          exact ih.1 _,
          fun run => by
          rw [phGo_cons_other_none c rest h1 h2, extractGo_cons_other c rest run h1 h2]
          exact ih.2 _⟩

/-- Every genuine placeholder name of a template is among the matches of the
path-parameter regular expression. -/
theorem placeholders_subset_extract (tpl : String) (p : String)
    (h : p ∈ placeholdersOf tpl) : p ∈ extractPathParams tpl :=
  ((placeholderGo_sublist tpl.data).2 []).subset h

/-! ### Lemmas about removal of explicit names -/

@[simp] theorem pathParam_location (n : String) (r : Bool) : (pathParam n r).location = "path" := rfl

@[simp] theorem pathParam_name (n : String) (r : Bool) : (pathParam n r).name = n := rfl

@[simp] theorem pathParam_required (n : String) (r : Bool) : (pathParam n r).required = r := rfl

@[simp] theorem pathParam_type (n : String) (r : Bool) : (pathParam n r).type = some "string" := rfl

@[simp] theorem bodyParam_location (b : String) : (bodyParam b).location = "body" := rfl

theorem mem_removeStringFromArray (arr : List String) (s x : String) :
    x ∈ removeStringFromArray arr s ↔ x ∈ arr ∧ x ≠ s := by
  simp [removeStringFromArray]

theorem mem_foldl_remove (raw : List (String × Bool)) :
    ∀ (l : List String) (x : String), x ∈ l → (∀ pr ∈ raw, x ≠ pr.1) →
      x ∈ raw.foldl (fun acc pr => removeStringFromArray acc pr.1) l := by
  induction raw with
  | nil => intro l x hx _; simpa using hx
  | cons p rest ih =>
    intro l x hx hne
    simp only [List.foldl_cons]
    exact ih _ x ((mem_removeStringFromArray l p.1 x).2 ⟨hx, hne p (by simp)⟩)
      (fun q hq => hne q (List.mem_cons_of_mem _ hq))

theorem mem_of_mem_foldl_remove (raw : List (String × Bool)) :
    ∀ (l : List String) (x : String),
      x ∈ raw.foldl (fun acc pr => removeStringFromArray acc pr.1) l →
      x ∈ l ∧ ∀ pr ∈ raw, x ≠ pr.1 := by
  induction raw with
  | nil => intro l x hx; exact ⟨by simpa using hx, by simp⟩
  | cons p rest ih =>
    intro l x hx
    obtain ⟨hmem, hrest⟩ := ih _ x hx
    obtain ⟨hl, hp⟩ := (mem_removeStringFromArray l p.1 x).1 hmem
    refine ⟨hl, fun q hq => ?_⟩
    rcases List.mem_cons.1 hq with h | h
    · exact h ▸ hp
    · exact hrest q h

theorem nodup_foldl_remove (raw : List (String × Bool)) :
    ∀ (l : List String), l.Nodup →
      (raw.foldl (fun acc pr => removeStringFromArray acc pr.1) l).Nodup := by
  induction raw with
  | nil => intro l hl; simpa using hl
  | cons p rest ih =>
    intro l hl
    exact ih _ (List.Nodup.filter _ hl)

/-! ### Path-synthesis lemmas -/

/-- The body of the full-trigger case of `generatePaths`, as a function of the
accumulated paths map and one flattened route. -/
def processRoute (paths : Paths) (r : String × HttpObj) : Paths :=
  let path := normalizePath r.2.path
  let ops := (getKey paths path).getD []
  setKey paths path (setKey ops r.2.method (mkOperation r.1 r.2))

/-- The last route in processing order whose normalized path and verbatim
method match the given keys, if any. -/
def lastRouteMatching : List (String × HttpObj) → String → String → Option (String × HttpObj)
  | [], _, _ => none
  | r :: rest, path, method =>
    match lastRouteMatching rest path method with
    | some x => some x
    | none =>
      if normalizePath r.2.path = path ∧ r.2.method = method then some r else none

theorem processEvent_eq (functionName : String) (paths : Paths) (e : Event) :
    processEvent functionName paths e =
      match eventHttp e with
      | some (.full h) => processRoute paths (functionName, h)
      | _ => paths := by
  cases h : eventHttp e with
  | none => simp [processEvent, h]
  | some d => cases d <;> simp [processEvent, h, processRoute]

theorem foldl_processEvent_eq (functionName : String) (events : List Event) :
    ∀ paths : Paths,
      events.foldl (processEvent functionName) paths =
        (events.filterMap (fun e =>
          match eventHttp e with
          | some (.full h) => some (functionName, h)
          | _ => none)).foldl processRoute paths := by
  induction events with
  | nil => intro paths; rfl
  | cons e rest ih =>
    intro paths
    simp only [List.foldl_cons, processEvent_eq]
    cases h : eventHttp e with
    | none => simp only [List.filterMap_cons, h]; exact ih _
    | some d =>
      cases d with
      | shorthand s => simp only [List.filterMap_cons, h]; exact ih _
      | full hh => simp only [List.filterMap_cons, h, List.foldl_cons]; exact ih _

theorem buildPaths_eq_foldl_routes (functions : List (String × FunctionConfig)) :
    buildPaths functions = (routesOf functions).foldl processRoute [] := by
  suffices h : ∀ init : Paths,
      functions.foldl
        (fun paths fc => ((fc.2.events).getD []).foldl (processEvent fc.1) paths) init =
        (routesOf functions).foldl processRoute init from h []
  induction functions with
  | nil => intro init; rfl
  | cons fc rest ih =>
    intro init
    simp only [List.foldl_cons, routesOf, List.foldl_append]
    rw [foldl_processEvent_eq, ih]

theorem lookupOp_setKey (paths : Paths) (q p m : String) (ops : List (String × Operation)) :
    lookupOp (setKey paths q ops) p m =
      if q = p then getKey ops m else lookupOp paths p m := by
  unfold lookupOp
  rw [getKey_setKey]
  by_cases h : q = p <;> simp [h]

theorem lookupOp_processRoute (paths : Paths) (r : String × HttpObj) (p m : String) :
    lookupOp (processRoute paths r) p m =
      if normalizePath r.2.path = p ∧ r.2.method = m then some (mkOperation r.1 r.2)
      else lookupOp paths p m := by
  unfold processRoute
  rw [lookupOp_setKey]
  by_cases hp : normalizePath r.2.path = p
  · subst hp
    rw [if_pos rfl, getKey_setKey]
    by_cases hm : r.2.method = m
    · simp [hm]
    · rw [if_neg hm, if_neg (by simp [hm])]
      cases hops : getKey paths (normalizePath r.2.path) with
      | none => simp [lookupOp, hops, getKey]
      | some ops => simp [lookupOp, hops]
  · rw [if_neg hp, if_neg (by simp [hp])]

theorem lookupOp_foldl_processRoute (routes : List (String × HttpObj)) :
    ∀ (init : Paths) (p m : String),
      lookupOp (routes.foldl processRoute init) p m =
        match lastRouteMatching routes p m with
        | some r => some (mkOperation r.1 r.2)
        | none => lookupOp init p m := by
  induction routes with
  | nil => intro init p m; rfl
  | cons r rest ih =>
    intro init p m
    simp only [List.foldl_cons, ih, lastRouteMatching]
    cases h : lastRouteMatching rest p m with
    | some x => simp
    | none =>
      simp only [lookupOp_processRoute]
      by_cases hc : normalizePath r.2.path = p ∧ r.2.method = m
      · simp [hc]
      · simp [hc]

theorem normalizePath_head (p : String) :
    (normalizePath p).data.head? = some slashChar := by
  unfold normalizePath
  by_cases h : p.data.head? = some slashChar
  · simp [h]
  · rw [if_neg h, string_data_append]
    have hs : "/".data = [slashChar] := by decide
    rw [hs]
    rfl

theorem keys_foldl_processRoute (routes : List (String × HttpObj)) :
    ∀ (init : Paths) (k : String), k ∈ (routes.foldl processRoute init).map Prod.fst →
      k ∈ init.map Prod.fst ∨ ∃ r ∈ routes, k = normalizePath r.2.path := by
  induction routes with
  | nil => intro init k h; exact Or.inl (by simpa using h)
  | cons r rest ih =>
    intro init k h
    rcases ih _ k h with h1 | h1
    · rcases (mem_keys_setKey _ _ _ _).1 h1 with h2 | h2
      · exact Or.inl h2
      · exact Or.inr ⟨r, by simp, h2⟩
    · obtain ⟨r', hr', hk⟩ := h1
      exact Or.inr ⟨r', List.mem_cons_of_mem _ hr', hk⟩

/-! ### Type-gathering lemmas -/

/-- All definitions contributed by the sources, flattened in source order. -/
def allDefs : List SourceOutcome → List (String × Definition)
  | [] => []
  | s :: rest => defsOf s ++ allDefs rest

theorem foldl_mergeDefs_eq (sources : List SourceOutcome) :
    ∀ init : List (String × Definition),
      sources.foldl (fun acc s => mergeDefs acc (defsOf s)) init =
        (allDefs sources).foldl (fun a p => setKey a p.1 p.2) init := by
  induction sources with
  | nil => intro init; rfl
  | cons s rest ih =>
    intro init
    simp only [List.foldl_cons, allDefs, List.foldl_append]
    rw [ih]
    rfl

/-! ### Claim C10 -/

/-- C10: `generatePaths` assigns only the paths field of the swagger document:
for every input function map, the document's swagger version marker, info block,
schemes list and definitions map are identical to their values before the call
(and the skeleton carries the fixed marker "2.0" and schemes ["https"]). -/
theorem c10_generate_paths_frame (sw : Swagger) (functions : List (String × FunctionConfig)) :
    (generatePaths sw functions).swagger = sw.swagger ∧
    (generatePaths sw functions).info = sw.info ∧
    (generatePaths sw functions).schemes = sw.schemes ∧
    (generatePaths sw functions).definitions = sw.definitions ∧
    initialSwagger.swagger = "2.0" ∧
    initialSwagger.info = { title := "", version := "1" } ∧
    initialSwagger.schemes = ["https"] :=
  ⟨rfl, rfl, rfl, rfl, rfl, rfl, rfl⟩

/-! ### Claim C1 -/

/-- C1 (amended): the paths map produced by path synthesis is grouped by the
normalized path template (a leading slash is prepended when missing, so every
key starts with a slash), within each path the operation object is keyed by the
HTTP method string exactly as declared (no case normalization), and when two
routes declare the same path+method pair the last-processed route's operation
object overwrites the earlier one without error: the operation found under keys
`p`/`m` is exactly the one of the last-processed route matching them. -/
theorem c1_paths_characterization (functions : List (String × FunctionConfig))
    (p m : String) :
    lookupOp (buildPaths functions) p m =
      (lastRouteMatching (routesOf functions) p m).map (fun r => mkOperation r.1 r.2) ∧
    ∀ k ∈ (buildPaths functions).map Prod.fst, k.data.head? = some slashChar := by
  constructor
  · rw [buildPaths_eq_foldl_routes, lookupOp_foldl_processRoute]
    cases h : lastRouteMatching (routesOf functions) p m with
    | some r => simp
    | none => simp [lookupOp, getKey]
  · intro k hk
    rw [buildPaths_eq_foldl_routes] at hk
    rcases keys_foldl_processRoute _ [] k hk with h | ⟨r, _, hk'⟩
    · simp at h
    · rw [hk']
      exact normalizePath_head _

/-- An http event declaring its method in upper case. -/
def exHttpGet : HttpObj := { path := "hello", method := "GET" }

/-- A one-function map whose only route uses the upper-case method "GET". -/
def exC1Functions : List (String × FunctionConfig) :=
  [("getHello", { events := some [{ http := some (.full exHttpGet) }] })]

/-- C1 counterexample: the operation of a route declared with method "GET" is
stored under the verbatim key "GET", not under the lower-case-normalized key
"get", refuting the claimed lower-case normalization of the method key. -/
theorem c1_counterexample :
    lookupOp (buildPaths exC1Functions) "/hello" "get" = none ∧
    lookupOp (buildPaths exC1Functions) "/hello" "GET" =
      some (mkOperation "getHello" exHttpGet) := by
  constructor <;> rfl

/-- C1 witness: the amended characterization applied to the concrete map. -/
theorem c1_witness :
    lookupOp (buildPaths exC1Functions) "/hello" "GET" =
      some (mkOperation "getHello" exHttpGet) ∧
    "/hello".data.head? = some slashChar := by
  constructor
  · rw [(c1_paths_characterization exC1Functions "/hello" "GET").1]
    rfl
  · exact (c1_paths_characterization exC1Functions "/hello" "GET").2 "/hello" (by decide)

/-! ### Claim C8 -/

/-- Whether the selected trigger of an event is the shorthand string form. -/
def isShorthandTrigger (e : Event) : Bool :=
  match eventHttp e with
  | some (.shorthand _) => true
  | _ => false

/-- The function map with all shorthand-trigger events removed. -/
def dropShorthandEvents (functions : List (String × FunctionConfig)) :
    List (String × FunctionConfig) :=
  functions.map (fun fc =>
    (fc.1, { events := some (((fc.2.events).getD []).filter (fun e => !isShorthandTrigger e)) }))

theorem filterMap_filter_shorthand (functionName : String) (events : List Event) :
    (events.filter (fun e => !isShorthandTrigger e)).filterMap (fun e =>
        match eventHttp e with
        | some (.full h) => some (functionName, h)
        | _ => none) =
      events.filterMap (fun e =>
        match eventHttp e with
        | some (.full h) => some (functionName, h)
        | _ => none) := by
  induction events with
  | nil => rfl
  | cons e rest ih =>
    cases h : eventHttp e with
    | none =>
      have hs : isShorthandTrigger e = false := by simp [isShorthandTrigger, h]
      simp [List.filter_cons, hs, List.filterMap_cons, h, ih]
    | some d =>
      cases d with
      | shorthand s =>
        have hs : isShorthandTrigger e = true := by simp [isShorthandTrigger, h]
        simp [List.filter_cons, hs, List.filterMap_cons, h, ih]
      | full hh =>
        have hs : isShorthandTrigger e = false := by simp [isShorthandTrigger, h]
        simp [List.filter_cons, hs, List.filterMap_cons, h, ih]

theorem routesOf_dropShorthand (functions : List (String × FunctionConfig)) :
    routesOf (dropShorthandEvents functions) = routesOf functions := by
  induction functions with
  | nil => rfl
  | cons fc rest ih =>
    simp only [dropShorthandEvents, List.map_cons, routesOf, Option.getD_some] at *
    rw [filterMap_filter_shorthand, ih]

/-- C8: a route whose HTTP trigger is declared in the shorthand string form
contributes no operation object (its processing step leaves the paths map
untouched), and the paths map of any function set equals the paths map of the
same set with all shorthand-trigger events removed. -/
theorem c8_shorthand_skipped :
    (∀ (functionName : String) (paths : Paths) (e : Event) (s : String),
        eventHttp e = some (.shorthand s) → processEvent functionName paths e = paths) ∧
    ∀ functions, buildPaths functions = buildPaths (dropShorthandEvents functions) := by
  constructor
  · intro functionName paths e s h
    simp [processEvent, h]
  · intro functions
    rw [buildPaths_eq_foldl_routes, buildPaths_eq_foldl_routes, routesOf_dropShorthand]

/-- An event using the shorthand string trigger form. -/
def exShorthandEvent : Event := { http := some (.shorthand "get hello") }

/-- A function map mixing a shorthand-trigger route and a full-object route. -/
def exC8Functions : List (String × FunctionConfig) :=
  [("shortRoute", { events := some [exShorthandEvent] }),
   ("getHello", { events := some [{ http := some (.full exHttpGet) }] })]

/-- C8 witness: the skip theorem applied to a concrete shorthand event and a
concrete function map. -/
theorem c8_witness :
    processEvent "shortRoute" [] exShorthandEvent = [] ∧
    buildPaths exC8Functions = buildPaths (dropShorthandEvents exC8Functions) :=
  ⟨c8_shorthand_skipped.1 "shortRoute" [] exShorthandEvent "get hello" rfl,
   c8_shorthand_skipped.2 exC8Functions⟩

/-! ### Structure of the parameter list -/

theorem httpEventToParameters_none (ev : HttpObj) (hnone : ev.parametersPath = none) :
    httpEventToParameters ev =
      (if strTruthy ev.bodyType then [bodyParam (ev.bodyType.getD "")] else []) ++
      (extractPathParams ev.path).map (fun p => pathParam p true) := by
  unfold httpEventToParameters
  rw [hnone]
  by_cases hm : extractPathParams ev.path = []
  · simp [hm]
  · simp [hm]

theorem httpEventToParameters_some (ev : HttpObj) (raw : List (String × Bool))
    (hsome : ev.parametersPath = some raw) :
    httpEventToParameters ev =
      (if strTruthy ev.bodyType then [bodyParam (ev.bodyType.getD "")] else []) ++
      (raw.map (fun pr => pathParam pr.1 pr.2) ++
        (raw.foldl (fun acc pr => removeStringFromArray acc pr.1)
            (extractPathParams ev.path)).map (fun p => pathParam p true)) := by
  unfold httpEventToParameters
  rw [hsome]
  simp

theorem filter_loc_of_all (l : List Param) (loc : String) (h : ∀ p ∈ l, p.location = loc) :
    l.filter (fun q => decide (q.location = loc)) = l := by
  induction l with
  | nil => rfl
  | cons x xs ih =>
    have hx : decide (x.location = loc) = true := by
      rw [h x (by simp)]
      simp
    simp [List.filter_cons, hx, ih (fun p hp => h p (by simp [hp]))]

theorem filter_loc_of_none (l : List Param) (loc : String) (h : ∀ p ∈ l, p.location ≠ loc) :
    l.filter (fun q => decide (q.location = loc)) = [] := by
  induction l with
  | nil => rfl
  | cons x xs ih =>
    have hx : decide (x.location = loc) = false := by
      simpa using h x (by simp)
    simp [List.filter_cons, hx, ih (fun p hp => h p (by simp [hp]))]

theorem bodyPart_all_body (ev : HttpObj) :
    ∀ p ∈ (if strTruthy ev.bodyType then [bodyParam (ev.bodyType.getD "")] else []),
      p.location = "body" := by
  split_ifs <;> simp

theorem mem_map_pathParam_location {β : Type} (l : List β) (f : β → Param)
    (hf : ∀ b, (f b).location = "path") : ∀ p ∈ l.map f, p.location = "path" := by
  intro p hp
  obtain ⟨b, _, rfl⟩ := List.mem_map.1 hp
  exact hf b

/-! ### Claim C2 -/

/-- C2 (amended): for every http event whose path template is a well-formed
alternation of brace-free literals and placeholders with nonempty brace-free
pairwise-distinct names (so every closing brace terminates a placeholder), and
which has no explicit parameters.path declaration, `httpEventToParameters`
emits exactly one path parameter per placeholder — each of the form
name/in path/required true/type string — in left-to-right template order. -/
theorem c2_implicit_path_parameters (ev : HttpObj) (lit0 : String)
    (segs : List (String × String)) (hpath : ev.path = mkTemplate lit0 segs)
    (hnone : ev.parametersPath = none) (h0 : braceFree lit0)
    (hsegs : ∀ p ∈ segs, p.1 ≠ "" ∧ braceFree p.1 ∧ braceFree p.2)
    (_hnd : (segs.map Prod.fst).Nodup) :
    placeholdersOf ev.path = segs.map Prod.fst ∧
    (httpEventToParameters ev).filter (fun q => decide (q.location = "path")) =
      (segs.map Prod.fst).map (fun n => pathParam n true) ∧
    ((httpEventToParameters ev).filter (fun q => decide (q.location = "path"))).length =
      segs.length := by
  have hm : extractPathParams ev.path = segs.map Prod.fst := by
    rw [hpath]
    exact extractPathParams_mkTemplate lit0 segs h0 hsegs
  have hfilter : (httpEventToParameters ev).filter (fun q => decide (q.location = "path")) =
      (segs.map Prod.fst).map (fun n => pathParam n true) := by
    rw [httpEventToParameters_none ev hnone, hm, List.filter_append,
      filter_loc_of_none _ _ (fun p hp => by rw [bodyPart_all_body ev p hp]; decide),
      filter_loc_of_all _ _ (mem_map_pathParam_location _ _ (fun b => rfl))]
    simp
  refine ⟨?_, hfilter, ?_⟩
  · rw [hpath]
    exact placeholdersOf_mkTemplate lit0 segs h0 hsegs
  · rw [hfilter]
    simp

/-- A path template carrying a stray closing brace and no placeholder. -/
def exC2Bad : HttpObj := { path := "a\x7d", method := "get" }

/-- C2 counterexample: the template "a\x7d" contains zero placeholders and no
explicit parameters.path declaration, yet `httpEventToParameters` emits one
path parameter (named "a"), refuting the claimed exact-N correspondence. -/
theorem c2_counterexample :
    placeholdersOf exC2Bad.path = [] ∧
    exC2Bad.parametersPath = none ∧
    (httpEventToParameters exC2Bad).filter (fun q => decide (q.location = "path")) =
      [pathParam "a" true] :=
  ⟨rfl, rfl, rfl⟩

/-- A well-formed one-placeholder template, as a canonical template value. -/
def exC2Http : HttpObj := { path := mkTemplate "user/" [("id", "")], method := "get" }

/-- C2 witness: the amended theorem applied to the template "user/\x7bid\x7d". -/
theorem c2_witness :
    placeholdersOf exC2Http.path = ["id"] ∧
    (httpEventToParameters exC2Http).filter (fun q => decide (q.location = "path")) =
      [pathParam "id" true] := by
  have h := c2_implicit_path_parameters exC2Http "user/" [("id", "")] rfl rfl
    (by decide) (by decide) (by decide)
  exact ⟨h.1, h.2.1⟩

/-! ### Claim C3 -/

/-- C3: for every http event carrying an explicit parameters.path declaration,
the emitted list consists of the optional body parameter, then one path
parameter per declared name whose required flag equals exactly the declared
boolean (even when the name does not occur in the path template), then the
remaining template-derived names as required path parameters; and every
template placeholder name not covered by the declaration survives into that
trailing segment. -/
theorem c3_explicit_path_parameters (ev : HttpObj) (raw : List (String × Bool))
    (hsome : ev.parametersPath = some raw) :
    httpEventToParameters ev =
      (if strTruthy ev.bodyType then [bodyParam (ev.bodyType.getD "")] else []) ++
      (raw.map (fun pr => pathParam pr.1 pr.2) ++
        (raw.foldl (fun acc pr => removeStringFromArray acc pr.1)
            (extractPathParams ev.path)).map (fun p => pathParam p true)) ∧
    ∀ p, p ∈ placeholdersOf ev.path → p ∉ raw.map Prod.fst →
      p ∈ raw.foldl (fun acc pr => removeStringFromArray acc pr.1)
        (extractPathParams ev.path) := by
  refine ⟨httpEventToParameters_some ev raw hsome, ?_⟩
  intro p hp hnc
  refine mem_foldl_remove raw _ p (placeholders_subset_extract _ _ hp) ?_
  intro pr hpr hcon
  exact hnc (hcon ▸ List.mem_map_of_mem Prod.fst hpr)

/-- An event with an explicit declaration naming "other" (absent from the
template) while the template contributes the placeholder "id". -/
def exC3Http : HttpObj :=
  { path := "user/\x7bid\x7d", method := "get", parametersPath := some [("other", false)] }

/-- C3 witness: the declared name "other" is emitted with its declared flag
`false` although it does not occur in the template, and the uncovered
placeholder "id" is emitted afterwards as required. -/
theorem c3_witness :
    httpEventToParameters exC3Http = [pathParam "other" false, pathParam "id" true] ∧
    "id" ∈ [("other", false)].foldl (fun acc pr => removeStringFromArray acc pr.1)
      (extractPathParams exC3Http.path) := by
  have h := c3_explicit_path_parameters exC3Http [("other", false)] rfl
  constructor
  · rw [h.1]
    rfl
  · exact h.2 "id" (by decide) (by decide)

/-! ### Claim C9 -/

theorem map_name_pathParam_true (l : List String) :
    (l.map (fun p => pathParam p true)).map Param.name = l := by
  induction l with
  | nil => rfl
  | cons x xs ih => simp [ih]

theorem map_name_pathParam_pairs (raw : List (String × Bool)) :
    (raw.map (fun pr => pathParam pr.1 pr.2)).map Param.name = raw.map Prod.fst := by
  induction raw with
  | nil => rfl
  | cons x xs ih => simp [ih]

/-- C9 (amended): the parameter list contains at most one body parameter, and
whenever the template-extracted occurrences are pairwise distinct (no repeated
placeholder) and the explicitly declared names are pairwise distinct, the path
parameters are pairwise distinct by name — in particular a name occurring both
in the template and in the declaration is emitted only once, from the
declaration; a template repeating a placeholder name, however, yields duplicate
path parameters. -/
theorem c9_parameter_invariants (ev : HttpObj)
    (hex : (extractPathParams ev.path).Nodup)
    (hraw : ∀ raw, ev.parametersPath = some raw → (raw.map Prod.fst).Nodup) :
    ((httpEventToParameters ev).filter (fun q => decide (q.location = "body"))).length ≤ 1 ∧
    (((httpEventToParameters ev).filter
        (fun q => decide (q.location = "path"))).map Param.name).Nodup := by
  have hbody : ((if strTruthy ev.bodyType then [bodyParam (ev.bodyType.getD "")]
      else []).filter (fun q => decide (q.location = "body"))).length ≤ 1 := by
    split_ifs <;> simp [List.filter_cons]
  have e2 : ((if strTruthy ev.bodyType then [bodyParam (ev.bodyType.getD "")]
      else []).filter (fun q => decide (q.location = "path"))) = [] :=
    filter_loc_of_none _ _ (fun p hp => by rw [bodyPart_all_body ev p hp]; decide)
  cases hpp : ev.parametersPath with
  | none =>
    have hpm : ∀ p ∈ (extractPathParams ev.path).map (fun q => pathParam q true),
        p.location = "path" := mem_map_pathParam_location _ _ (fun b => rfl)
    have e1 : ((extractPathParams ev.path).map (fun q => pathParam q true)).filter
        (fun q => decide (q.location = "body")) = [] :=
      filter_loc_of_none _ _ (fun p hp => by rw [hpm p hp]; decide)
    have e3 : ((extractPathParams ev.path).map (fun q => pathParam q true)).filter
        (fun q => decide (q.location = "path")) =
        (extractPathParams ev.path).map (fun q => pathParam q true) :=
      filter_loc_of_all _ _ hpm
    rw [httpEventToParameters_none ev hpp]
    constructor
    · rw [List.filter_append, e1]
      simpa using hbody
    · rw [List.filter_append, e2, e3, List.nil_append, map_name_pathParam_true]
      exact hex
  | some raw =>
    have hnd := hraw raw hpp
    have hpm1 : ∀ p ∈ raw.map (fun pr => pathParam pr.1 pr.2), p.location = "path" :=
      mem_map_pathParam_location _ _ (fun b => rfl)
    have hpm2 : ∀ p ∈ (raw.foldl (fun acc pr => removeStringFromArray acc pr.1)
        (extractPathParams ev.path)).map (fun p => pathParam p true), p.location = "path" :=
      mem_map_pathParam_location _ _ (fun b => rfl)
    have e1a : (raw.map (fun pr => pathParam pr.1 pr.2)).filter
        (fun q => decide (q.location = "body")) = [] :=
      filter_loc_of_none _ _ (fun p hp => by rw [hpm1 p hp]; decide)
    have e1b : ((raw.foldl (fun acc pr => removeStringFromArray acc pr.1)
        (extractPathParams ev.path)).map (fun p => pathParam p true)).filter
        (fun q => decide (q.location = "body")) = [] :=
      filter_loc_of_none _ _ (fun p hp => by rw [hpm2 p hp]; decide)
    have e3a : (raw.map (fun pr => pathParam pr.1 pr.2)).filter
        (fun q => decide (q.location = "path")) = raw.map (fun pr => pathParam pr.1 pr.2) :=
      filter_loc_of_all _ _ hpm1
    have e3b : ((raw.foldl (fun acc pr => removeStringFromArray acc pr.1)
        (extractPathParams ev.path)).map (fun p => pathParam p true)).filter
        (fun q => decide (q.location = "path")) =
        (raw.foldl (fun acc pr => removeStringFromArray acc pr.1)
          (extractPathParams ev.path)).map (fun p => pathParam p true) :=
      filter_loc_of_all _ _ hpm2
    rw [httpEventToParameters_some ev raw hpp]
    constructor
    · rw [List.filter_append, List.filter_append, e1a, e1b]
      simpa using hbody
    · rw [List.filter_append, e2, List.filter_append, e3a, e3b,
        List.nil_append, List.map_append, map_name_pathParam_pairs, map_name_pathParam_true,
        List.nodup_append]
      refine ⟨hnd, nodup_foldl_remove raw _ hex, ?_⟩
      intro a ha hb
      obtain ⟨pr, hpr, rfl⟩ := List.mem_map.1 ha
      exact (mem_of_mem_foldl_remove raw _ _ hb).2 pr hpr rfl

/-- A template repeating the placeholder name "id". -/
def exC9Http : HttpObj := { path := "\x7bid\x7d/\x7bid\x7d", method := "get" }

/-- C9 counterexample: a template repeating a placeholder name yields two path
parameters both named "id", refuting pairwise distinctness of path-parameter
names as claimed. -/
theorem c9_counterexample :
    ((httpEventToParameters exC9Http).filter
        (fun q => decide (q.location = "path"))).map Param.name = ["id", "id"] ∧
    ¬ (((httpEventToParameters exC9Http).filter
        (fun q => decide (q.location = "path"))).map Param.name).Nodup := by
  constructor
  · rfl
  · decide

/-- An event mentioning the same name in the template and the declaration. -/
def exC9Good : HttpObj :=
  { path := "user/\x7bid\x7d", method := "get", bodyType := some "Order",
    parametersPath := some [("id", false)] }

/-- C9 witness: the amended invariant applied to a concrete event whose
template placeholder is also declared explicitly. -/
theorem c9_witness :
    ((httpEventToParameters exC9Good).filter
        (fun q => decide (q.location = "body"))).length ≤ 1 ∧
    (((httpEventToParameters exC9Good).filter
        (fun q => decide (q.location = "path"))).map Param.name).Nodup := by
  refine c9_parameter_invariants exC9Good (by decide) ?_
  intro raw h
  simp only [exC9Good, Option.some.injEq] at h
  subst h
  decide

/-! ### Claim C4 -/

theorem map_fst_map_entry {β α : Type} (f : String → β → α) (l : List (String × β)) :
    (l.map (fun pr => (pr.1, f pr.1 pr.2))).map Prod.fst = l.map Prod.fst := by
  induction l with
  | nil => rfl
  | cons x xs ih => simp [ih]

theorem formatResponse_obj (sc : String) (od bt : Option String)
    (hod : od ≠ some "") (hbt : bt ≠ some "") :
    formatResponse sc (.obj od bt) =
      { description := od.getD (sc ++ " response"),
        schema := bt.map (fun b => "#/definitions/" ++ b) } := by
  cases od with
  | none =>
    cases bt with
    | none => rfl
    | some b =>
      have hb : b ≠ "" := fun h => hbt (by rw [h])
      simp [formatResponse, strTruthy, hb]
  | some d =>
    have hd : d ≠ "" := fun h => hod (by rw [h])
    cases bt with
    | none => simp [formatResponse, strTruthy, hd]
    | some b =>
      have hb : b ≠ "" := fun h => hbt (by rw [h])
      simp [formatResponse, strTruthy, hd, hb]

/-- C4: `formatResponses` applied to an absent responses declaration returns
exactly the default 200 entry; applied to a declared map it returns one entry
per input status code, where a plain-string value yields that string as the
description, an object value gets the default "statusCode response" description
when the declared one is absent, and a schema reference is attached exactly
when a (nonempty) bodyType name is present. -/
theorem c4_format_responses :
    formatResponses none = [("200", { description := "200 response", schema := none })] ∧
    ∀ rs : List (String × ResponseDecl), (rs.map Prod.fst).Nodup →
      ((formatResponses (some rs)).map Prod.fst = rs.map Prod.fst ∧
       ∀ sc rd, (sc, rd) ∈ rs →
         (∀ s, rd = .str s →
           getKey (formatResponses (some rs)) sc =
             some { description := s, schema := none }) ∧
         (∀ od bt, rd = .obj od bt → od ≠ some "" → bt ≠ some "" →
           getKey (formatResponses (some rs)) sc =
             some { description := od.getD (sc ++ " response"),
                    schema := bt.map (fun b => "#/definitions/" ++ b) })) := by
  constructor
  · rfl
  · intro rs hnd
    have heq : formatResponses (some rs) =
        rs.map (fun pr => (pr.1, formatResponse pr.1 pr.2)) := by
      have h := foldl_setKey_of_nodup (fun sc rd => formatResponse sc rd) rs [] (by simp) hnd
      simpa [formatResponses] using h
    constructor
    · rw [heq, map_fst_map_entry]
    · intro sc rd hmem
      constructor
      · intro s hs
        subst hs
        rw [heq, getKey_map_of_nodup _ rs hnd sc _ hmem]
        rfl
      · intro od bt hobj hod hbt
        subst hobj
        rw [heq, getKey_map_of_nodup _ rs hnd sc _ hmem, formatResponse_obj sc od bt hod hbt]

/-- A declared responses map with a shorthand entry and a structured entry. -/
def exC4Responses : List (String × ResponseDecl) :=
  [("201", .str "Created"), ("200", .obj none (some "User"))]

/-- C4 witness: the theorem applied to a concrete responses map. -/
theorem c4_witness :
    (formatResponses (some exC4Responses)).map Prod.fst = ["201", "200"] ∧
    getKey (formatResponses (some exC4Responses)) "201" =
      some { description := "Created", schema := none } ∧
    getKey (formatResponses (some exC4Responses)) "200" =
      some { description := "200 response", schema := some "#/definitions/User" } := by
  have h := c4_format_responses.2 exC4Responses (by decide)
  refine ⟨by rw [h.1]; rfl, ?_, ?_⟩
  · exact (h.2 "201" (.str "Created") (by decide)).1 "Created" rfl
  · have h2 := (h.2 "200" (.obj none (some "User")) (by decide)).2 none (some "User")
      rfl (by decide) (by decide)
    simpa using h2

/-! ### Claim C5 -/

/-- C5: for every http event with a (nonempty) bodyType declared, the first
entry of the parameter list is the body parameter referencing
#/definitions/bodyType, regardless of how many path parameters follow; when
bodyType is absent no body parameter is emitted. -/
theorem c5_body_parameter (ev : HttpObj) :
    (∀ bt, ev.bodyType = some bt → bt ≠ "" →
      (httpEventToParameters ev).head? = some (bodyParam bt)) ∧
    (ev.bodyType = none → ∀ p ∈ httpEventToParameters ev, p.location ≠ "body") := by
  constructor
  · intro bt hbt hne
    have ht : strTruthy ev.bodyType = true := by
      rw [hbt]
      simpa [strTruthy] using hne
    cases hpp : ev.parametersPath with
    | none =>
      rw [httpEventToParameters_none ev hpp, ht, hbt]
      simp
    | some raw =>
      rw [httpEventToParameters_some ev raw hpp, ht, hbt]
      simp
  · intro hnone p hp
    have hbp : (if strTruthy ev.bodyType then [bodyParam (ev.bodyType.getD "")]
        else []) = ([] : List Param) := by
      rw [hnone]
      rfl
    cases hpp : ev.parametersPath with
    | none =>
      rw [httpEventToParameters_none ev hpp, hbp, List.nil_append] at hp
      rw [mem_map_pathParam_location _ _ (fun b => rfl) p hp]
      decide
    | some raw =>
      rw [httpEventToParameters_some ev raw hpp, hbp, List.nil_append] at hp
      rcases List.mem_append.1 hp with h | h
      · rw [mem_map_pathParam_location _ _ (fun b => rfl) p h]
        decide
      · rw [mem_map_pathParam_location _ _ (fun b => rfl) p h]
        decide

/-- A route declaring the body-schema reference Order and a path parameter. -/
def exC5Http : HttpObj :=
  { path := "user/\x7bid\x7d", method := "post", bodyType := some "Order" }

/-- C5 witness: the body parameter referencing #/definitions/Order comes first. -/
theorem c5_witness :
    (httpEventToParameters exC5Http).head? = some (bodyParam "Order") :=
  (c5_body_parameter exC5Http).1 "Order" rfl (by decide)

/-! ### Claim C6 -/

/-- C6 (amended): the fan-out over all type-definition sources sits inside one
try/catch, so when any source fails to read, convert or parse, the failure is
logged and the run continues, but the definitions assignment is skipped
entirely — the document's definitions field keeps its prior value and no
source's definitions are recorded; only when every source succeeds are the
per-source maps merged (in source order) and assigned. -/
theorem c6_failure_semantics (sw : Swagger) (sources : List SourceOutcome) :
    (sources.any isErr = true → gatherTypes sw sources = sw) ∧
    (sources.any isErr = false →
      (gatherTypes sw sources).definitions =
        some ((allDefs sources).foldl (fun a p => setKey a p.1 p.2) [])) := by
  constructor
  · intro h
    simp [gatherTypes, h]
  · intro h
    simp [gatherTypes, h, foldl_mergeDefs_eq]

/-- A successful source defining Widget followed by a failing source. -/
def exC6Sources : List SourceOutcome := [.ok [("Widget", "A")], .err "read failure"]

/-- C6 counterexample: with a successful source defining Widget followed by a
failing source, the rejection of the whole fan-out is caught before the
assignment, so `definitions` remains unassigned — the successful source's
Widget definition is not present, refuting the claimed per-source isolation. -/
theorem c6_counterexample :
    (gatherTypes initialSwagger exC6Sources).definitions = none := rfl

/-- C6 witness: the amended semantics applied to concrete source lists. -/
theorem c6_witness :
    gatherTypes initialSwagger exC6Sources = initialSwagger ∧
    (gatherTypes initialSwagger [SourceOutcome.ok [("Widget", "A")]]).definitions =
      some [("Widget", "A")] := by
  constructor
  · exact (c6_failure_semantics initialSwagger exC6Sources).1 rfl
  · rw [(c6_failure_semantics initialSwagger [SourceOutcome.ok [("Widget", "A")]]).2 rfl]
    rfl

/-! ### Claim C7 -/

/-- C7: when all sources succeed, merging the per-source schema maps yields a
single map in which every name appears exactly once (the key list has no
duplicates), bound to the definition contributed by the last-processed source
defining it. -/
theorem c7_last_wins_merge (sw : Swagger) (sources : List SourceOutcome) (k : String)
    (h : ∀ s ∈ sources, isErr s = false) :
    ∃ D, (gatherTypes sw sources).definitions = some D ∧
      (D.map Prod.fst).Nodup ∧
      getKey D k = lastValueFor (allDefs sources) k := by
  have hany : sources.any isErr = false := by
    rw [List.any_eq_false]
    intro s hs
    simp [h s hs]
  refine ⟨(allDefs sources).foldl (fun a p => setKey a p.1 p.2) [], ?_, ?_, ?_⟩
  · simp [gatherTypes, hany, foldl_mergeDefs_eq]
  · exact nodup_keys_foldl_setKey _ [] (by simp)
  · rw [getKey_foldl_setKey]
    cases hl : lastValueFor (allDefs sources) k with
    | some v => simp
    | none => simp [getKey]

/-- Two successful sources both defining the schema name Widget. -/
def exC7Sources : List SourceOutcome := [.ok [("Widget", "A")], .ok [("Widget", "B")]]

/-- C7 witness: two sources each defining Widget yield exactly one Widget
entry, equal to the second source's definition. -/
theorem c7_witness :
    ∃ D, (gatherTypes initialSwagger exC7Sources).definitions = some D ∧
      (D.map Prod.fst).Nodup ∧ getKey D "Widget" = some "B" := by
  obtain ⟨D, h1, h2, h3⟩ := c7_last_wins_merge initialSwagger exC7Sources "Widget" (by decide)
  exact ⟨D, h1, h2, by rw [h3]; rfl⟩

end AutoSwagger
